import Mathlib

/-!
Verification of the petrocoin blockchain core (`src/main.js`).

The development shallowly embeds the two classes of the source — `Block` and
`Blockchain` — together with the concrete SHA-256 digest the source obtains
from `crypto-js/sha256`.  JavaScript peculiarities that are observable in the
hashed strings are carried over faithfully:

* the `Block` constructor assigns `this.hash = this.calculateHash()` *before*
  `this.nonce = 0`, so the constructor-time digest sees the string
  `"undefined"` in the nonce position;
* `this.index + this.previousHash` is JavaScript `+`: when `previousHash` is a
  string the number `index` is stringified and concatenated, when
  `previousHash` is `undefined` the numeric addition yields `NaN` and the
  subsequent concatenation with the timestamp string renders `"NaN"`;
* `JSON.stringify(this.data)` is modelled by storing the payload already in
  its canonical JSON serialization (field `data` of the embedded `Block`).

All definitions are executable, machine words are `Nat` reduced mod `2 ^ 32`,
and the unbounded `while` loop of `mineBlock` is embedded with explicit fuel:
`mineBlock fuel d b = some b'` states that the JavaScript loop returns after
at most `fuel` iterations with the block in state `b'`.
-/

namespace Petrocoin

/-! ## SHA-256 (the digest `crypto-js/sha256` computes, hex-encoded) -/

/-- `2 ^ 32`, the modulus for 32-bit machine words. -/
def M32 : Nat := 4294967296

/-- Right rotation of a 32-bit word (`x` is assumed `< M32`, `1 ≤ n ≤ 31`). -/
def rotr32 (x n : Nat) : Nat := (x >>> n ||| x <<< (32 - n)) % M32

/-- Bitwise complement of a 32-bit word. -/
def not32 (x : Nat) : Nat := x ^^^ 4294967295

/-- SHA-256 choice function. -/
def ch32 (e f g : Nat) : Nat := (e &&& f) ^^^ (not32 e &&& g)

/-- SHA-256 majority function. -/
def maj32 (a b c : Nat) : Nat := (a &&& b) ^^^ (a &&& c) ^^^ (b &&& c)

/-- SHA-256 big sigma 0. -/
def bsig0 (x : Nat) : Nat := rotr32 x 2 ^^^ rotr32 x 13 ^^^ rotr32 x 22

/-- SHA-256 big sigma 1. -/
def bsig1 (x : Nat) : Nat := rotr32 x 6 ^^^ rotr32 x 11 ^^^ rotr32 x 25

/-- SHA-256 small sigma 0. -/
def ssig0 (x : Nat) : Nat := rotr32 x 7 ^^^ rotr32 x 18 ^^^ (x >>> 3)

/-- SHA-256 small sigma 1. -/
def ssig1 (x : Nat) : Nat := rotr32 x 17 ^^^ rotr32 x 19 ^^^ (x >>> 10)

/-- The 64 SHA-256 round constants. -/
def K256 : List Nat :=
  [1116352408, 1899447441, 3049323471, 3921009573, 961987163,
   1508970993, 2453635748, 2870763221, 3624381080, 310598401,
   607225278, 1426881987, 1925078388, 2162078206, 2614888103,
   3248222580, 3835390401, 4022224774, 264347078, 604807628,
   770255983, 1249150122, 1555081692, 1996064986, 2554220882,
   2821834349, 2952996808, 3210313671, 3336571891, 3584528711,
   113926993, 338241895, 666307205, 773529912, 1294757372,
   1396182291, 1695183700, 1986661051, 2177026350, 2456956037,
   2730485921, 2820302411, 3259730800, 3345764771, 3516065817,
   3600352804, 4094571909, 275423344, 430227734, 506948616,
   659060556, 883997877, 958139571, 1322822218, 1537002063,
   1747873779, 1955562222, 2024104815, 2227730452, 2361852424,
   2428436474, 2756734187, 3204031479, 3329325298]

/-- The initial SHA-256 state. -/
def H256 : List Nat :=
  [1779033703, 3144134277, 1013904242, 2773480762,
   1359893119, 2600822924, 528734635, 1541459225]

/-- Big-endian 8-byte encoding of the bit length, as used by SHA-256 padding. -/
def lenBytes (bits : Nat) : List Nat :=
  [bits >>> 56 &&& 255, bits >>> 48 &&& 255, bits >>> 40 &&& 255,
   bits >>> 32 &&& 255, bits >>> 24 &&& 255, bits >>> 16 &&& 255,
   bits >>> 8 &&& 255, bits &&& 255]

/-- SHA-256 padding: append `0x80`, zero bytes up to 56 mod 64, then the
64-bit big-endian message bit length. -/
def padBytes (m : List Nat) : List Nat :=
  m ++ [128] ++ List.replicate ((119 - m.length % 64) % 64) 0
    ++ lenBytes (m.length * 8)

/-- Group a byte list into big-endian 32-bit words (length assumed a multiple
of 4). -/
def bytesToWords : List Nat → List Nat
  | b0 :: b1 :: b2 :: b3 :: rest =>
      (b0 <<< 24 ||| b1 <<< 16 ||| b2 <<< 8 ||| b3) :: bytesToWords rest
  | _ => []

/-- Message-schedule extension, building the word list most-recent-first:
each step prepends `σ1 w[t-2] + w[t-7] + σ0 w[t-15] + w[t-16]`. -/
def schedRev : Nat → List Nat → List Nat
  | 0, acc => acc
  | n + 1, acc =>
      schedRev n
        (((ssig1 (acc.getD 1 0) + acc.getD 6 0 + ssig0 (acc.getD 14 0)
            + acc.getD 15 0) % M32) :: acc)

/-- The 64 SHA-256 compression rounds.  The first argument is the list of
precomputed `(K[t] + W[t]) % 2 ^ 32` values, the remaining eight are the
working registers `a`–`h`. -/
def roundLoop : List Nat → Nat → Nat → Nat → Nat → Nat → Nat → Nat → Nat →
    List Nat
  | [], a, b, c, d, e, f, g, h => [a, b, c, d, e, f, g, h]
  | kw :: rest, a, b, c, d, e, f, g, h =>
      let t1 := (h + bsig1 e + ch32 e f g + kw) % M32
      let t2 := (bsig0 a + maj32 a b c) % M32
      roundLoop rest ((t1 + t2) % M32) a b c ((d + t1) % M32) e f g

/-- One SHA-256 compression: absorb one 64-byte block into the 8-word state. -/
def compress (hs : List Nat) (block : List Nat) : List Nat :=
  let w := (schedRev 48 (bytesToWords block).reverse).reverse
  let kw := List.zipWith (fun k x => (k + x) % M32) K256 w
  let r := roundLoop kw (hs.getD 0 0) (hs.getD 1 0) (hs.getD 2 0)
    (hs.getD 3 0) (hs.getD 4 0) (hs.getD 5 0) (hs.getD 6 0) (hs.getD 7 0)
  List.zipWith (fun x y => (x + y) % M32) hs r

/-- Fold the compression over `n` consecutive 64-byte blocks. -/
def processCount : Nat → List Nat → List Nat → List Nat
  | 0, hs, _ => hs
  | n + 1, hs, bytes => processCount n (compress hs (bytes.take 64)) (bytes.drop 64)

/-- Hex digit for a value `< 16`, lowercase as `crypto-js`'s `toString()`. -/
def hexChar (n : Nat) : Char := "0123456789abcdef".toList.getD n '0'

/-- Eight-hex-digit big-endian rendering of a 32-bit word. -/
def wordHex (x : Nat) : List Char :=
  [hexChar (x >>> 28 &&& 15), hexChar (x >>> 24 &&& 15),
   hexChar (x >>> 20 &&& 15), hexChar (x >>> 16 &&& 15),
   hexChar (x >>> 12 &&& 15), hexChar (x >>> 8 &&& 15),
   hexChar (x >>> 4 &&& 15), hexChar (x &&& 15)]

/-- The UTF-8 bytes of a string; all strings hashed by this program are
ASCII, where the byte is the code point. -/
def strBytes (s : String) : List Nat := s.toList.map Char.toNat

/-- SHA-256 of a string, hex-encoded: the value of
`SHA256(s).toString()` in the source. -/
def sha256 (s : String) : String :=
  let padded := padBytes (strBytes s)
  let hs := processCount (padded.length / 64) H256 padded
  String.mk (List.foldr (fun w acc => wordHex w ++ acc) [] hs)

end Petrocoin

namespace Petrocoin

/-! ## The `Block` class -/

/-- A `Block` of `src/main.js`.  `index` is the JavaScript number (an integer
in every use), `data` holds the payload already in its `JSON.stringify`
serialization, and `previousHash` is `none` when the JavaScript field is
`undefined` (the constructor's default when called with three arguments). -/
structure Block where
  index : Int
  timestamp : String
  data : String
  previousHash : Option String
  hash : String
  nonce : Nat
deriving DecidableEq

/-- The string `this.index + this.previousHash + this.timestamp +
JSON.stringify(this.data) + n` that `calculateHash` feeds to `SHA256`, for a
given rendering `n` of the nonce position.  JavaScript `+` semantics: with a
string `previousHash` the number `index` is stringified and concatenated; with
`previousHash === undefined` the numeric addition `index + undefined` is `NaN`
and concatenating the timestamp renders it as the string `"NaN"`. -/
def hashInput (index : Int) (previousHash : Option String)
    (timestamp data nonceStr : String) : String :=
  (match previousHash with
   | some p => toString index ++ p
   | none => "NaN") ++ timestamp ++ data ++ nonceStr

/-- `Block.calculateHash` of the source: SHA-256 over index, previousHash,
timestamp, serialized data and the (numeric, hence decimal-rendered) nonce. -/
def calculateHash (b : Block) : String :=
  sha256 (hashInput b.index b.previousHash b.timestamp b.data (toString b.nonce))

/-- `Block.calculateHash` as a state transformer on the receiver: the method
body is a single `return` with no assignment to `this`, so the embedding
returns the digest together with the unchanged block. -/
def calculateHashS (b : Block) : String × Block := (calculateHash b, b)

/-- The `Block` constructor.  The source assigns `this.hash =
this.calculateHash()` *before* `this.nonce = 0`, so the constructor-time
digest sees `undefined` — rendered `"undefined"` — in the nonce position,
while the constructed block's `nonce` field is `0`. -/
def newBlock (index : Int) (timestamp data : String)
    (previousHash : Option String) : Block :=
  { index := index, timestamp := timestamp, data := data,
    previousHash := previousHash,
    hash := sha256 (hashInput index previousHash timestamp data "undefined"),
    nonce := 0 }

/-- `Array(d + 1).join("0")`: the string of `d` zero characters the mining
loop compares against. -/
def zeroString (d : Nat) : String := String.mk (List.replicate d '0')

/-- One iteration of the mining loop body: `this.nonce++` then
`this.hash = this.calculateHash()`. -/
def mineStep (b : Block) : Block :=
  let b1 : Block := { b with nonce := b.nonce + 1 }
  { b1 with hash := calculateHash b1 }

/-- The `while` loop of `Block.mineBlock`, with explicit fuel: the condition
`this.hash.substring(0, difficulty) !== Array(difficulty + 1).join("0")` is
tested before each iteration (`String.take` clamps exactly as `substring`
does); `none` means the loop has not terminated within `fuel` iterations. -/
def mineBlockAux : Nat → Nat → Block → Option Block
  | 0, difficulty, b =>
      if b.hash.take difficulty = zeroString difficulty then some b else none
  | fuel + 1, difficulty, b =>
      if b.hash.take difficulty = zeroString difficulty then some b
      else mineBlockAux fuel difficulty (mineStep b)

/-- `Block.mineBlock(difficulty)` (the trailing `console.log` is output only
and is not modelled). -/
def mineBlock (fuel difficulty : Nat) (b : Block) : Option Block :=
  mineBlockAux fuel difficulty b

/-! ## The `Blockchain` class -/

/-- A `Blockchain` of `src/main.js`: the `chain` array and the `difficulty`
field. -/
structure Blockchain where
  chain : List Block
  difficulty : Nat
deriving DecidableEq

/-- `Blockchain.createGenesisBlock`: `new Block(0, "01/01/2018",
"Genesis Block", "0")`; `JSON.stringify` of the string payload is
`"\"Genesis Block\""`. -/
def createGenesisBlock : Block :=
  newBlock 0 "01/01/2018" "\"Genesis Block\"" (some "0")

/-- The `Blockchain` constructor: `chain = [createGenesisBlock()]` and
`difficulty = 2`. -/
def newBlockchain : Blockchain :=
  { chain := [createGenesisBlock], difficulty := 2 }

/-- `Blockchain.getLatestBlock`: `this.chain[this.chain.length - 1]`, which is
`undefined` (`none`) only on an empty chain. -/
def getLatestBlock (bc : Blockchain) : Option Block := bc.chain.getLast?

/-- `Blockchain.addBlock`: overwrite the candidate's `previousHash` with the
latest block's hash, mine it at the chain's difficulty, push it.  `none`
models the non-terminating (fuel-exhausted) mining call; the empty-chain case
(where the JavaScript would fault reading `.hash` of `undefined`) also maps
to `none` and is unreachable from a constructed chain. -/
def addBlock (fuel : Nat) (bc : Blockchain) (nb : Block) : Option Blockchain :=
  match getLatestBlock bc with
  | none => none
  | some latest =>
      match mineBlock fuel bc.difficulty
          { nb with previousHash := some latest.hash } with
      | none => none
      | some mined => some { bc with chain := bc.chain ++ [mined] }

/-- The loop of `Blockchain.isChainValid`, consuming the chain as the
successive adjacent pairs `(chain[i-1], chain[i])` for `i = 1, …`: return
`false` as soon as `chain[i].hash !== chain[i].calculateHash()` or
`chain[i].previousHash !== chain[i-1].hash`, and `true` when the loop runs
out (which covers the empty and the one-block chain). -/
def isChainValidGo : List Block → Bool
  | prevB :: curB :: rest =>
      if curB.hash ≠ calculateHash curB then false
      else if curB.previousHash ≠ some prevB.hash then false
      else isChainValidGo (curB :: rest)
  | _ => true

/-- `Blockchain.isChainValid`. -/
def isChainValid (bc : Blockchain) : Bool := isChainValidGo bc.chain

/-- `Blockchain.isChainValid` as an index-driven state transformer, the
literal shape of the source's `for (let i = 1; i < this.chain.length; i++)`
loop: the first argument counts the remaining iterations
(`this.chain.length - i`), the second is `i`, and the receiver is threaded
through unchanged since the body only reads. -/
def isChainValidIter : Nat → Nat → Blockchain → Bool × Blockchain
  | 0, _, bc => (true, bc)
  | k + 1, i, bc =>
      match bc.chain[i]?, bc.chain[i - 1]? with
      | some curB, some prevB =>
          if curB.hash ≠ calculateHash curB then (false, bc)
          else if curB.previousHash ≠ some prevB.hash then (false, bc)
          else isChainValidIter k (i + 1) bc
      | _, _ => (true, bc)

/-- `Blockchain.isChainValid` as a state transformer on the receiver. -/
def isChainValidS (bc : Blockchain) : Bool × Blockchain :=
  isChainValidIter (bc.chain.length - 1) 1 bc

/-- A finite sequence of `addBlock` calls, left to right. -/
def appendAll (fuel : Nat) : Blockchain → List Block → Option Blockchain
  | bc, [] => some bc
  | bc, nb :: rest =>
      match addBlock fuel bc nb with
      | none => none
      | some bc2 => appendAll fuel bc2 rest

end Petrocoin

namespace Petrocoin

/-! ## Concrete blocks used by witnesses and counterexamples -/

/-- Normalize a block so the content-integrity invariant holds: store
`calculateHash` of the block's fields in its `hash` field. -/
def normHash (b : Block) : Block := { b with hash := calculateHash b }

/-- A demo-shaped candidate, `new Block(1, "12/01/2018", 73)`, whose
constructor-time digest already begins with two zero hex characters, so the
difficulty-2 mining loop of `addBlock` exits after zero iterations. -/
def cexBlock : Block := newBlock 1 "12/01/2018" "73" none

/-- The candidate `new Block(1, "12/01/2018", 48)` with its `previousHash`
already overwritten by the genesis hash, exactly as `addBlock` rewires it:
its constructor-time digest misses the difficulty-2 target and nonce 1
already satisfies it, so mining performs exactly one iteration. -/
def witnessBlock1 : Block :=
  { newBlock 1 "12/01/2018" "48" none with
    previousHash := some createGenesisBlock.hash }

/-- A handcrafted second block that is internally consistent and correctly
linked to the genesis block. -/
def wtail : Block :=
  normHash { index := 1, timestamp := "t", data := "5",
             previousHash := some createGenesisBlock.hash, hash := "",
             nonce := 0 }

end Petrocoin

namespace Petrocoin

/-! ## Helper lemmas -/

/-- `calculateHash` never reads the `hash` field. -/
theorem calculateHash_set_hash (b : Block) (s : String) :
    calculateHash { b with hash := s } = calculateHash b := rfl

/-- Every mining iteration leaves the block satisfying the content-integrity
invariant: the loop body's final assignment is `this.hash =
this.calculateHash()` over the fields it just fixed. -/
theorem mineStep_hash (b : Block) :
    (mineStep b).hash = calculateHash (mineStep b) := rfl

/-- Full postcondition of the embedded mining loop: on `some b'` the final
hash meets the target, the block is either untouched (zero iterations) or
satisfies `hash = calculateHash`, and the non-nonce, non-hash fields are
preserved. -/
theorem mineBlockAux_spec (fuel d : Nat) (b b' : Block)
    (h : mineBlockAux fuel d b = some b') :
    b'.hash.take d = zeroString d ∧ (b' = b ∨ b'.hash = calculateHash b') ∧
    b'.index = b.index ∧ b'.timestamp = b.timestamp ∧ b'.data = b.data ∧
    b'.previousHash = b.previousHash := by
  induction fuel generalizing b with
  | zero =>
      by_cases hc : b.hash.take d = zeroString d
      · rw [mineBlockAux, if_pos hc] at h
        simp only [Option.some.injEq] at h
        subst h
        exact ⟨hc, Or.inl rfl, rfl, rfl, rfl, rfl⟩
      · rw [mineBlockAux, if_neg hc] at h
        simp at h
  | succ fuel ih =>
      by_cases hc : b.hash.take d = zeroString d
      · rw [mineBlockAux, if_pos hc] at h
        simp only [Option.some.injEq] at h
        subst h
        exact ⟨hc, Or.inl rfl, rfl, rfl, rfl, rfl⟩
      · rw [mineBlockAux, if_neg hc] at h
        obtain ⟨h1, h2, h3, h4, h5, h6⟩ := ih (mineStep b) h
        refine ⟨h1, ?_, h3, h4, h5, h6⟩
        rcases h2 with rfl | h2
        · exact Or.inr (mineStep_hash b)
        · exact Or.inr h2

/-- A list of at most one block always validates. -/
theorem isChainValidGo_short (l : List Block) (h : l.length ≤ 1) :
    isChainValidGo l = true := by
  match l with
  | [] => rfl
  | [_] => rfl
  | _ :: _ :: _ => simp at h

/-- The unfolding of the validation loop on an adjacent pair. -/
theorem isChainValidGo_cons_cons (prevB curB : Block) (rest : List Block) :
    isChainValidGo (prevB :: curB :: rest) =
      if curB.hash ≠ calculateHash curB then false
      else if curB.previousHash ≠ some prevB.hash then false
      else isChainValidGo (curB :: rest) := rfl

/-- What a successful validation of an adjacent pair yields. -/
theorem isChainValidGo_true (prevB curB : Block) (rest : List Block)
    (h : isChainValidGo (prevB :: curB :: rest) = true) :
    curB.hash = calculateHash curB ∧ curB.previousHash = some prevB.hash ∧
      isChainValidGo (curB :: rest) = true := by
  rw [isChainValidGo_cons_cons] at h
  by_cases h1 : curB.hash = calculateHash curB
  · by_cases h2 : curB.previousHash = some prevB.hash
    · rw [if_neg (not_not_intro h1), if_neg (not_not_intro h2)] at h
      exact ⟨h1, h2, h⟩
    · rw [if_neg (not_not_intro h1), if_pos h2] at h
      simp at h
  · rw [if_pos h1] at h
    simp at h

/-- Appending a block that is internally consistent and linked to the last
block preserves validity. -/
theorem isChainValidGo_append (b : Block) :
    ∀ (l : List Block) (last : Block), l.getLast? = some last →
      isChainValidGo l = true → b.hash = calculateHash b →
      b.previousHash = some last.hash → isChainValidGo (l ++ [b]) = true := by
  intro l
  induction l with
  | nil => intro last hl _ _ _; simp at hl
  | cons a tail ih =>
      intro last hl hv hb1 hb2
      cases tail with
      | nil =>
          simp only [List.getLast?_singleton, Option.some.injEq] at hl
          subst hl
          simp only [List.cons_append, List.nil_append]
          rw [isChainValidGo_cons_cons,
            if_neg (not_not_intro hb1), if_neg (not_not_intro hb2)]
          rfl
      | cons c rest =>
          obtain ⟨h1, h2, h3⟩ := isChainValidGo_true a c rest hv
          have hl2 : (c :: rest).getLast? = some last := by
            rw [← hl]; exact (List.getLast?_cons_cons).symm
          have := ih last hl2 h3 hb1 hb2
          show isChainValidGo (a :: ((c :: rest) ++ [b])) = true
          rw [List.cons_append, isChainValidGo_cons_cons,
            if_neg (not_not_intro h1), if_neg (not_not_intro h2)]
          exact this

end Petrocoin

namespace Petrocoin

/-- Anatomy of a successful `addBlock`: the chain was non-empty, the rewired
candidate mined successfully, and the result is the old chain with the mined
block pushed. -/
theorem addBlock_some (fuel : Nat) (bc bc' : Blockchain) (nb : Block)
    (h : addBlock fuel bc nb = some bc') :
    ∃ latest mined, bc.chain.getLast? = some latest ∧
      mineBlockAux fuel bc.difficulty
        { nb with previousHash := some latest.hash } = some mined ∧
      bc'.chain = bc.chain ++ [mined] ∧ bc'.difficulty = bc.difficulty := by
  unfold addBlock at h
  split at h
  · simp at h
  · rename_i latest hl
    split at h
    · simp at h
    · rename_i mined hm
      simp only [Option.some.injEq] at h
      subst h
      exact ⟨latest, mined, hl, hm, rfl, rfl⟩

/-- A successful `addBlock` on a valid chain whose candidate does not already
meet the difficulty target produces a valid chain of the same difficulty. -/
theorem addBlock_valid (fuel : Nat) (bc bc' : Blockchain) (nb : Block)
    (hv : isChainValid bc = true)
    (hm : nb.hash.take bc.difficulty ≠ zeroString bc.difficulty)
    (h : addBlock fuel bc nb = some bc') :
    isChainValid bc' = true ∧ bc'.difficulty = bc.difficulty := by
  obtain ⟨latest, mined, hl, hmine, hchain, hdiff⟩ := addBlock_some fuel bc bc' nb h
  obtain ⟨h1, h2, _, _, _, h6⟩ := mineBlockAux_spec _ _ _ _ hmine
  have hmhash : mined.hash = calculateHash mined := by
    rcases h2 with rfl | h2
    · exact absurd h1 hm
    · exact h2
  refine ⟨?_, hdiff⟩
  rw [isChainValid, hchain]
  exact isChainValidGo_append mined bc.chain latest hl hv hmhash h6

/-- Validity is preserved along any successful run of `addBlock` calls whose
candidates all miss the difficulty target at construction time. -/
theorem appendAll_valid (d : Nat) :
    ∀ (bs : List Block) (fuel : Nat) (bc bc' : Blockchain),
      bc.difficulty = d → isChainValid bc = true →
      (∀ b ∈ bs, b.hash.take d ≠ zeroString d) →
      appendAll fuel bc bs = some bc' → isChainValid bc' = true := by
  intro bs
  induction bs with
  | nil =>
      intro fuel bc bc' _ hv _ happ
      rw [appendAll] at happ
      simp only [Option.some.injEq] at happ
      subst happ
      exact hv
  | cons nb rest ih =>
      intro fuel bc bc' hd hv hbs happ
      rw [appendAll] at happ
      split at happ
      · simp at happ
      rename_i bc2 hab
      have hm : nb.hash.take bc.difficulty ≠ zeroString bc.difficulty := by
        rw [hd]; exact hbs nb (List.mem_cons_self nb rest)
      obtain ⟨hv2, hd2⟩ := addBlock_valid fuel bc bc2 nb hv hm hab
      exact ih fuel bc2 bc' (hd2.trans hd) hv2
        (fun b hb => hbs b (List.mem_cons_of_mem nb hb)) happ

/-- A successful `addBlock` preserves the linkage invariant: the pushed block
was rewired to the previous last block's hash before mining, and mining never
touches `previousHash`. -/
theorem addBlock_linked (fuel : Nat) (bc bc' : Blockchain) (nb : Block)
    (hL : List.Chain' (fun p c => c.previousHash = some p.hash) bc.chain)
    (h : addBlock fuel bc nb = some bc') :
    List.Chain' (fun p c => c.previousHash = some p.hash) bc'.chain := by
  obtain ⟨latest, mined, hl, hmine, hchain, _⟩ := addBlock_some fuel bc bc' nb h
  obtain ⟨_, _, _, _, _, h6⟩ := mineBlockAux_spec _ _ _ _ hmine
  rw [hchain, List.chain'_append]
  refine ⟨hL, List.chain'_singleton mined, ?_⟩
  intro x hx y hy
  simp only [List.head?_cons, Option.mem_def, Option.some.injEq] at hy
  subst hy
  rw [hl] at hx
  simp only [Option.mem_def, Option.some.injEq] at hx
  subst hx
  exact h6

/-- The linkage invariant is preserved along any successful run of
`addBlock` calls. -/
theorem appendAll_linked :
    ∀ (bs : List Block) (fuel : Nat) (bc bc' : Blockchain),
      List.Chain' (fun p c => c.previousHash = some p.hash) bc.chain →
      appendAll fuel bc bs = some bc' →
      List.Chain' (fun p c => c.previousHash = some p.hash) bc'.chain := by
  intro bs
  induction bs with
  | nil =>
      intro fuel bc bc' hL happ
      rw [appendAll] at happ
      simp only [Option.some.injEq] at happ
      subst happ
      exact hL
  | cons nb rest ih =>
      intro fuel bc bc' hL happ
      rw [appendAll] at happ
      split at happ
      · simp at happ
      rename_i bc2 hab
      exact ih fuel bc2 bc' (addBlock_linked fuel bc bc2 nb hL hab) happ

/-- `Chain'` gives the relation on every adjacent pair addressed by index. -/
theorem chain'_pair (R : Block → Block → Prop) :
    ∀ (l : List Block), List.Chain' R l → ∀ (i : Nat) (x y : Block),
      l[i]? = some x → l[i + 1]? = some y → R x y := by
  intro l
  induction l with
  | nil => intro _ i x y hx _; simp at hx
  | cons a tail ih =>
      intro hc i x y hx hy
      cases i with
      | zero =>
          simp only [List.getElem?_cons_zero, Option.some.injEq] at hx
          subst hx
          cases tail with
          | nil => simp at hy
          | cons c rest =>
              simp only [List.getElem?_cons_succ, List.getElem?_cons_zero,
                Option.some.injEq] at hy
              subst hy
              exact (List.chain'_cons.mp hc).1
      | succ i =>
          exact ih ((List.chain'_cons'.mp hc).2) i x y
            (by simpa using hx) (by simpa using hy)

end Petrocoin

namespace Petrocoin

/-- The validation loop accepts exactly the chains whose every adjacent pair
satisfies the two checked equations — and nothing else. -/
theorem go_iff_chain' :
    ∀ (l : List Block), isChainValidGo l = true ↔
      List.Chain' (fun p c => c.hash = calculateHash c ∧
        c.previousHash = some p.hash) l := by
  intro l
  induction l with
  | nil => exact ⟨fun _ => List.chain'_nil, fun _ => rfl⟩
  | cons a tail ih =>
      cases tail with
      | nil => exact ⟨fun _ => List.chain'_singleton a, fun _ => rfl⟩
      | cons c rest =>
          rw [isChainValidGo_cons_cons, List.chain'_cons]
          by_cases h1 : c.hash = calculateHash c
          · by_cases h2 : c.previousHash = some a.hash
            · rw [if_neg (not_not_intro h1), if_neg (not_not_intro h2)]
              constructor
              · intro h; exact ⟨⟨h1, h2⟩, ih.mp h⟩
              · intro h; exact ih.mpr h.2
            · rw [if_neg (not_not_intro h1), if_pos h2]
              simp [h2]
          · rw [if_pos h1]
            simp [h1]

/-- The index-driven validation loop never writes the receiver. -/
theorem isChainValidIter_snd :
    ∀ (k i : Nat) (bc : Blockchain), (isChainValidIter k i bc).2 = bc := by
  intro k
  induction k with
  | zero => intro i bc; rfl
  | succ k ih =>
      intro i bc
      rw [isChainValidIter]
      split
      · split
        · rfl
        · split
          · rfl
          · exact ih (i + 1) bc
      · rfl

/-- The index-driven validation loop computes the same verdict as the
pair-consuming recursion, from any starting index. -/
theorem isChainValidIter_fst :
    ∀ (k : Nat), ∀ (i : Nat) (bc : Blockchain), 1 ≤ i →
      bc.chain.length ≤ k + i →
      (isChainValidIter k i bc).1 = isChainValidGo (bc.chain.drop (i - 1)) := by
  intro k
  induction k with
  | zero =>
      intro i bc hi hlen
      rw [isChainValidIter]
      exact (isChainValidGo_short _ (by rw [List.length_drop]; omega)).symm
  | succ k ih =>
      intro i bc hi hlen
      by_cases hlt : i < bc.chain.length
      · have hi1 : i - 1 < bc.chain.length := by omega
        rw [isChainValidIter, List.getElem?_eq_getElem hlt,
          List.getElem?_eq_getElem hi1]
        rw [List.drop_eq_getElem_cons hi1]
        have hii : i - 1 + 1 = i := by omega
        rw [hii, List.drop_eq_getElem_cons hlt, isChainValidGo_cons_cons]
        show (if (bc.chain[i]).hash ≠ calculateHash (bc.chain[i]) then (false, bc)
              else if (bc.chain[i]).previousHash ≠ some ((bc.chain[i - 1]).hash)
                then (false, bc)
              else isChainValidIter k (i + 1) bc).1 = _
        by_cases c1 : (bc.chain[i]).hash ≠ calculateHash (bc.chain[i])
        · rw [if_pos c1, if_pos c1]
        · rw [if_neg c1, if_neg c1]
          by_cases c2 : (bc.chain[i]).previousHash ≠ some ((bc.chain[i - 1]).hash)
          · rw [if_pos c2, if_pos c2]
          · rw [if_neg c2, if_neg c2]
            have h3 := ih (i + 1) bc (by omega) (by omega)
            rw [← List.drop_eq_getElem_cons hlt]
            simpa using h3
      · have hnone : bc.chain[i]? = none := List.getElem?_eq_none (by omega)
        rw [isChainValidIter, hnone]
        exact (isChainValidGo_short _ (by rw [List.length_drop]; omega)).symm

end Petrocoin

namespace Petrocoin

/-! ## Claims -/

set_option maxRecDepth 65536 in
set_option maxHeartbeats 4000000 in
/-- C1 (counterexample): the proof-of-work postcondition fails as stated.
With difficulty `0` the mining loop returns immediately on the freshly
constructed genesis block, and the block's `hash` — computed by the
constructor while `nonce` was still `undefined` — differs from the
recomputation of `calculateHash` over the block's current fields
(`nonce = 0`). -/
theorem mineBlock_zero_iterations_cex :
    mineBlock 0 0 createGenesisBlock = some createGenesisBlock ∧
    createGenesisBlock.hash ≠ calculateHash createGenesisBlock := by
  constructor
  · decide
  · decide

/-- C1 (amended): for every difficulty `d ≥ 0`, fuel bound and Block, when
`mineBlock d` returns, the final hash has at least `d` leading zero hex
characters; and either the loop ran zero iterations — returning the block
entirely unchanged, with whatever stale hash it carried — or the final hash
equals a recomputation of `calculateHash` over the block's current fields. -/
theorem mineBlock_postcondition (fuel d : Nat) (b bMined : Block)
    (h : mineBlock fuel d b = some bMined) :
    bMined.hash.take d = zeroString d ∧
    (bMined = b ∨ bMined.hash = calculateHash bMined) := by
  obtain ⟨h1, h2, _, _, _, _⟩ := mineBlockAux_spec fuel d b bMined h
  exact ⟨h1, h2⟩

set_option maxRecDepth 65536 in
set_option maxHeartbeats 4000000 in
/-- C1 witness: the amended postcondition instantiated at fuel 1,
difficulty 2, on the demo-shaped candidate wired to the genesis hash, which
mines in exactly one iteration. -/
theorem mineBlock_postcondition_witness :
    (mineStep witnessBlock1).hash.take 2 = zeroString 2 ∧
    (mineStep witnessBlock1 = witnessBlock1 ∨
      (mineStep witnessBlock1).hash = calculateHash (mineStep witnessBlock1)) :=
  mineBlock_postcondition 1 2 witnessBlock1 (mineStep witnessBlock1) (by decide)

set_option maxRecDepth 65536 in
set_option maxHeartbeats 4000000 in
/-- C2 (counterexample): immediately after constructing the demo block
`new Block(1, "12/01/2018", {amount: 4})`, `hash ≠ calculateHash()`: the
constructor computed `hash` while `nonce` was still `undefined`, the
recomputation uses `nonce = 0`. -/
theorem newBlock_hash_mismatch_cex :
    (newBlock 1 "12/01/2018" "\x7b\"amount\":4\x7d" none).hash ≠
      calculateHash (newBlock 1 "12/01/2018" "\x7b\"amount\":4\x7d" none) := by
  decide

/-- C2 (amended): for every input, the constructor returns a block whose
`nonce` is `0` and whose `hash` is the hash function applied to the block's
index, previousHash, timestamp and serialized payload with the nonce
position rendered as the string `"undefined"` — the constructor computes the
hash before `nonce` is initialized, so it is not in general `calculateHash`
of the constructed block. -/
theorem newBlock_spec (i : Int) (t d : String) (p : Option String) :
    (newBlock i t d p).nonce = 0 ∧
    (newBlock i t d p).hash = sha256 (hashInput i p t d "undefined") :=
  ⟨rfl, rfl⟩

set_option maxRecDepth 65536 in
set_option maxHeartbeats 4000000 in
/-- C3 (counterexample): appending `new Block(1, "12/01/2018", 73)` — whose
constructor-time hash already begins with two zero hex characters — to a
fresh chain makes the difficulty-2 mining loop exit after zero iterations,
so the stored hash still reflects the stale `previousHash` and the
`undefined` nonce, and `isChainValid()` on the resulting untampered chain
returns `false`. -/
theorem addBlock_premined_invalid_cex :
    Option.map isChainValid (addBlock 1 newBlockchain cexBlock) = some false := by
  decide

/-- C3 (amended): for every freshly constructed chain and every finite
sequence of blocks appended via `addBlock`, with no other mutation,
`isChainValid()` returns `true` — provided each appended candidate's
constructor-time hash does not already meet the difficulty-2 target (so the
mining loop runs at least one iteration; the counterexample shows the claim
fails without this proviso). -/
theorem untampered_chain_valid (bs : List Block) (fuel : Nat) (bc' : Blockchain)
    (hbs : ∀ b ∈ bs, b.hash.take 2 ≠ zeroString 2)
    (happ : appendAll fuel newBlockchain bs = some bc') :
    isChainValid bc' = true :=
  appendAll_valid 2 bs fuel newBlockchain bc' rfl rfl hbs happ

set_option maxRecDepth 65536 in
set_option maxHeartbeats 4000000 in
/-- C3 witness: the amended claim instantiated on a fresh chain with one
appended demo-shaped block that mines in one iteration. -/
theorem untampered_chain_valid_witness :
    isChainValid ⟨[createGenesisBlock, mineStep witnessBlock1], 2⟩ = true :=
  untampered_chain_valid [newBlock 1 "12/01/2018" "48" none] 1
    ⟨[createGenesisBlock, mineStep witnessBlock1], 2⟩ (by decide) (by decide)

/-- C4: tamper detection on a valid chain of at least two blocks.  Mutating
`blocks[1].hash` to any other string, or `blocks[1].previousHash` to any
value other than `blocks[0].hash`, makes `isChainValid()` return `false`
unconditionally.  Mutating `blocks[1].data` makes it return `false` unless
the mutated and original serializations form a SHA-256 collision (collision
resistance of the concrete digest cannot be proved, so it enters as an
explicit disjunct, discharged concretely in the witness). -/
theorem tamper_detection (b0 b1 : Block) (rest : List Block) (d : Nat)
    (hv : isChainValid ⟨b0 :: b1 :: rest, d⟩ = true) :
    (∀ d2 : String, d2 ≠ b1.data →
      isChainValid ⟨b0 :: { b1 with data := d2 } :: rest, d⟩ = false ∨
        calculateHash { b1 with data := d2 } = calculateHash b1) ∧
    (∀ s : String, s ≠ b1.hash →
      isChainValid ⟨b0 :: { b1 with hash := s } :: rest, d⟩ = false) ∧
    (∀ p : Option String, p ≠ some b0.hash →
      isChainValid ⟨b0 :: { b1 with previousHash := p } :: rest, d⟩ = false) := by
  obtain ⟨h1, h2, _⟩ := isChainValidGo_true b0 b1 rest hv
  refine ⟨?_, ?_, ?_⟩
  · intro d2 _
    by_cases hc : calculateHash { b1 with data := d2 } = calculateHash b1
    · exact Or.inr hc
    · left
      show isChainValidGo (b0 :: { b1 with data := d2 } :: rest) = false
      rw [isChainValidGo_cons_cons]
      have hne : ({ b1 with data := d2 } : Block).hash ≠
          calculateHash { b1 with data := d2 } := by
        show b1.hash ≠ calculateHash { b1 with data := d2 }
        rw [h1]
        exact fun he => hc he.symm
      rw [if_pos hne]
  · intro s hs
    show isChainValidGo (b0 :: { b1 with hash := s } :: rest) = false
    rw [isChainValidGo_cons_cons]
    have hne : ({ b1 with hash := s } : Block).hash ≠
        calculateHash { b1 with hash := s } := by
      show s ≠ calculateHash { b1 with hash := s }
      rw [calculateHash_set_hash, ← h1]
      exact hs
    rw [if_pos hne]
  · intro p hp
    show isChainValidGo (b0 :: { b1 with previousHash := p } :: rest) = false
    rw [isChainValidGo_cons_cons]
    by_cases hc : ({ b1 with previousHash := p } : Block).hash ≠
        calculateHash { b1 with previousHash := p }
    · rw [if_pos hc]
    · rw [if_neg hc]
      have hne : ({ b1 with previousHash := p } : Block).previousHash ≠
          some b0.hash := hp
      rw [if_pos hne]

set_option maxRecDepth 65536 in
set_option maxHeartbeats 4000000 in
/-- C4 witness: a concrete genesis-plus-one valid chain; each of the three
tampering mutations concretely flips `isChainValid()` to `false` (the
data-mutation collision disjunct is ruled out by computation). -/
theorem tamper_detection_witness :
    isChainValid ⟨[createGenesisBlock, { wtail with data := "6" }], 2⟩ = false ∧
    isChainValid ⟨[createGenesisBlock, { wtail with hash := "boom" }], 2⟩ = false ∧
    isChainValid ⟨[createGenesisBlock,
      { wtail with previousHash := some "boom" }], 2⟩ = false := by
  have h := tamper_detection createGenesisBlock wtail [] 2 (by decide)
  exact ⟨(h.1 "6" (by decide)).resolve_right (by decide),
    h.2.1 "boom" (by decide), h.2.2 (some "boom") (by decide)⟩

/-- C5: chain linkage invariant — after any successful sequence of
`addBlock` calls on a freshly constructed chain, every block at index
`i ≥ 1` has `previousHash` equal to the hash of the block at index
`i - 1`. -/
theorem chain_linkage (bs : List Block) (fuel : Nat) (bc' : Blockchain)
    (happ : appendAll fuel newBlockchain bs = some bc') :
    ∀ (i : Nat) (b bNext : Block), bc'.chain[i]? = some b →
      bc'.chain[i + 1]? = some bNext → bNext.previousHash = some b.hash := by
  have hL := appendAll_linked bs fuel newBlockchain bc'
    (List.chain'_singleton createGenesisBlock) happ
  intro i b bNext hb hbN
  exact chain'_pair (fun p c => c.previousHash = some p.hash) bc'.chain hL
    i b bNext hb hbN

set_option maxRecDepth 65536 in
set_option maxHeartbeats 4000000 in
/-- C5 witness: the linkage invariant at index 0/1 of a fresh chain with one
appended block. -/
theorem chain_linkage_witness :
    (mineStep witnessBlock1).previousHash = some createGenesisBlock.hash :=
  chain_linkage [newBlock 1 "12/01/2018" "48" none] 1
    ⟨[createGenesisBlock, mineStep witnessBlock1], 2⟩ (by decide) 0
    createGenesisBlock (mineStep witnessBlock1) (by decide) (by decide)

/-- C6: `isChainValid()` performs no proof-of-work check: its verdict is
equivalent to every adjacent pair satisfying exactly the two checked
equations — a characterization in which no leading-zero condition occurs, so
any internally consistent chain validates even if no hash meets the
difficulty target — and the verdict never depends on the `difficulty`
field. -/
theorem isChainValid_no_pow_check (bc : Blockchain) :
    (isChainValid bc = true ↔
      List.Chain' (fun p c => c.hash = calculateHash c ∧
        c.previousHash = some p.hash) bc.chain) ∧
    (∀ d : Nat,
      isChainValid { chain := bc.chain, difficulty := d } = isChainValid bc) :=
  ⟨go_iff_chain' bc.chain, fun _ => rfl⟩

/-- C7: genesis exemption — `isChainValid()` on a freshly constructed chain
(genesis only) returns `true`, and more generally on any one-block chain
whatever its hash and whatever the difficulty, since the validation loop
starts at index 1. -/
theorem genesis_exemption :
    isChainValid newBlockchain = true ∧
    ∀ (b : Block) (d : Nat), isChainValid ⟨[b], d⟩ = true :=
  ⟨rfl, fun _ _ => rfl⟩

/-- C8: the `Blockchain` constructor produces exactly one genesis block —
index 0, the fixed sentinel timestamp `"01/01/2018"` and payload
`"Genesis Block"`, `previousHash = "0"`, hash computed by the constructor
(never mined, `nonce = 0`) — and sets `difficulty` to the constant 2. -/
theorem blockchain_constructor_spec :
    newBlockchain.chain = [createGenesisBlock] ∧
    createGenesisBlock.index = 0 ∧
    createGenesisBlock.timestamp = "01/01/2018" ∧
    createGenesisBlock.data = "\"Genesis Block\"" ∧
    createGenesisBlock.previousHash = some "0" ∧
    createGenesisBlock.nonce = 0 ∧
    createGenesisBlock.hash =
      sha256 (hashInput 0 (some "0") "01/01/2018" "\"Genesis Block\""
        "undefined") ∧
    newBlockchain.difficulty = 2 :=
  ⟨rfl, rfl, rfl, rfl, rfl, rfl, rfl, rfl⟩

/-- C9: `calculateHash` is deterministic and pure — any two blocks agreeing
on `index`, `previousHash`, `timestamp`, `data` and `nonce` (their `hash`
fields may differ) hash identically, and the method mutates no field of the
receiver. -/
theorem calculateHash_deterministic :
    (∀ b1 b2 : Block, b1.index = b2.index → b1.previousHash = b2.previousHash →
      b1.timestamp = b2.timestamp → b1.data = b2.data → b1.nonce = b2.nonce →
      calculateHash b1 = calculateHash b2) ∧
    ∀ b : Block, calculateHashS b = (calculateHash b, b) := by
  constructor
  · intro b1 b2 h1 h2 h3 h4 h5
    simp only [calculateHash, h1, h2, h3, h4, h5]
  · intro b
    rfl

/-- C9 witness: two blocks differing only in their stored `hash` field have
the same `calculateHash`. -/
theorem calculateHash_deterministic_witness :
    calculateHash ⟨1, "t", "d", none, "h1", 0⟩ =
      calculateHash ⟨1, "t", "d", none, "h2", 0⟩ :=
  calculateHash_deterministic.1 ⟨1, "t", "d", none, "h1", 0⟩
    ⟨1, "t", "d", none, "h2", 0⟩ rfl rfl rfl rfl rfl

/-- C10: `isChainValid()` is read-only — the literal state-threading
embedding of its `for` loop returns the receiver unchanged, with the same
boolean verdict as `isChainValid`. -/
theorem isChainValid_readonly (bc : Blockchain) :
    (isChainValidS bc).2 = bc ∧ (isChainValidS bc).1 = isChainValid bc := by
  constructor
  · exact isChainValidIter_snd (bc.chain.length - 1) 1 bc
  · have h := isChainValidIter_fst (bc.chain.length - 1) 1 bc (le_refl 1)
      (by omega)
    simpa [isChainValidS, isChainValid] using h

end Petrocoin
